import Mathlib

/-!
Verification of the AionSupreme federated training core against its
natural-language specification.

The development shallowly embeds the relevant Python code:

* `src/server/federated/aggregate-adapters.py` — weighted FedAvg aggregation
  of LoRA adapters (`aggregate_adapters`, and the adapter-spec parsing done
  by `main`).  Numeric tensors (numpy arrays, lists, tuples — the code
  converts the latter two to arrays) are modelled as lists of rationals;
  non-numeric metadata values are modelled as opaque strings.  Python
  exceptions (zero division in the weight-ratio computation, numpy shape
  mismatch on addition, adding an array to non-numeric metadata) are
  modelled by `Option`: `none` is a raised exception escaping
  `aggregate_adapters`.  Length-1 numpy broadcasting is not modelled; all
  arrays exercised here have matching shapes.

* `src/gpu-workers/templates/colab-worker-autoreload.py` — the worker's
  hot-reload protocol (`reload_model`, `apply_lora_adapter`,
  `get_checkpoint_version`).  The network and the model loader are oracles:
  each HTTP call or load either returns a value or raises (`Except`), and
  the worker state (served model, reported checkpoint version) is passed
  explicitly.

* `src/docs/worker_scripts/colab_worker_auto_lifecycle.py` — the worker
  lifecycle HTTP helpers (`send_heartbeat`, `check_for_pending_job`,
  `send_gradients`), each a try/except wrapper around one HTTP call.

* `src/training/federated/FEDERATED_TRAINING.py` — the batch-index loop of
  the federated training notebook and the `numExamples` field of its
  gradient sync payload.
-/

namespace Aion

/-- A parameter value in an adapter weight mapping: either a numeric array
(covers `np.ndarray`, `list`, `tuple`, which the code converts to arrays)
or opaque non-numeric metadata (the code's `isinstance` test sends
everything else down the metadata path). -/
inductive Value where
  | arr : List ℚ → Value
  | meta : String → Value
deriving DecidableEq, Repr

/-- A weight mapping (Python dict parameter-name → value), as an ordered
association list; Python dicts have unique keys, carried as a `Nodup`
hypothesis where it matters. -/
abbrev Weights := List (String × Value)

/-- Python dict lookup `weights[param_name]` / `param_name in weights`
on the association-list model (first match). -/
def lookupW : Weights → String → Option Value
  | [], _ => none
  | (k, v) :: t, name => if k = name then some v else lookupW t name

/-- numpy elementwise addition `aggregated_param + weighted_param` of two
arrays: defined on equal shapes, a raised error (`none`) otherwise. -/
def addArr (a b : List ℚ) : Option (List ℚ) :=
  if a.length = b.length then some (List.zipWith (fun x y => x + y) a b) else none

/-- One iteration of the inner loop of `aggregate_adapters`
(aggregate-adapters.py lines 140-162) for a fixed `param_name`: the
accumulator is the Python local `aggregated_param` (`none` = Python `None`),
the outer `Option` is a raised exception.  A submission that omits the
parameter is skipped; a non-numeric (metadata) value is kept only when the
accumulator is still `None`; a numeric array is multiplied by the
submission's weight ratio and added to the accumulator. -/
def stepParam (name : String) (acc : Option Value) : Weights × ℚ → Option (Option Value)
  | (w, r) =>
    match lookupW w name with
    | none => some acc
    | some (Value.meta m) =>
        match acc with
        | none => some (some (Value.meta m))
        | some v => some (some v)
    | some (Value.arr a) =>
        match acc with
        | none => some (some (Value.arr (a.map (fun x => x * r))))
        | some (Value.arr prev) =>
            (addArr prev (a.map (fun x => x * r))).map (fun s => some (Value.arr s))
        | some (Value.meta _) => none

/-- The full inner loop for one parameter name: fold `stepParam` over the
loaded adapters, starting from `aggregated_param = None`. -/
def aggParam (adapters : List (Weights × ℚ)) (name : String) : Option (Option Value) :=
  adapters.foldlM (stepParam name) none

/-- The outer loop of `aggregate_adapters` (lines 136-165): iterate over
the given parameter names, storing `aggregated_param` into the output dict
whenever it ended up non-`None`. -/
def aggLoop (adapters : List (Weights × ℚ)) : List String → Option Weights
  | [] => some []
  | n :: ns => do
      let r ← aggParam adapters n
      let rest ← aggLoop adapters ns
      match r with
      | some v => some ((n, v) :: rest)
      | none => some rest

/-- Python true division `a / b` on ints: raises `ZeroDivisionError`
(`none`) when `b = 0`, otherwise the exact rational quotient. -/
def pyDiv (a b : Int) : Option ℚ :=
  if b = 0 then none else some ((a : ℚ) / (b : ℚ))

/-- The loading loop of `aggregate_adapters` (lines 110-127), restricted to
what it does with the numbers: compute `total_examples` as the sum of the
`num_examples`, then pair every adapter's weight mapping with its
`weight_ratio = num_examples / total_examples`.  The unguarded division is
the only failure modelled (file I/O of `load_adapter_weights` is out of
scope). -/
def computeRatios (pairs : List (Weights × Int)) : Option (List (Weights × ℚ)) :=
  let total := (pairs.map Prod.snd).sum
  pairs.mapM (fun p => (pyDiv p.2 total).map (fun r => (p.1, r)))

/-- `aggregate_adapters` (lines 110-166): compute the weight ratios, take
the parameter names from the FIRST adapter (`list(adapters[0][0].keys())`,
line 134 — an empty adapter list raises `IndexError` there, modelled
`none`), and run the aggregation loop over those names. -/
def aggregate_adapters (pairs : List (Weights × Int)) : Option Weights := do
  let adapters ← computeRatios pairs
  match adapters with
  | [] => none
  | first :: _ => aggLoop adapters (first.1.map Prod.fst)

/-- Python `str.split(sep)` for a one-character separator: split at every
occurrence, keeping empty parts (`"a:".split(":") == ["a", ""]`,
`"".split(":") == [""]`). -/
def pySplit (sep : Char) : List Char → List (List Char)
  | [] => [[]]
  | c :: rest =>
      let r := pySplit sep rest
      if c = sep then [] :: r
      else
        match r with
        | [] => [[c]]
        | h :: t => (c :: h) :: t

/-- Decimal accumulator for `pyInt`. -/
def digitsVal : List Char → Nat → Option Nat
  | [], acc => some acc
  | c :: rest, acc =>
      if c.isDigit then digitsVal rest (acc * 10 + (c.toNat - Char.toNat '0')) else none

/-- Python `int(str)` on its core inputs: an optional sign followed by a
nonempty run of decimal digits; anything else raises `ValueError` (`none`).
(Surrounding whitespace and `_` digit separators, which Python also
accepts, are not modelled; no claim depends on them.) -/
def pyInt (cs : List Char) : Option Int :=
  match cs with
  | '-' :: rest => if rest = [] then none else (digitsVal rest 0).map (fun n => -(n : Int))
  | '+' :: rest => if rest = [] then none else (digitsVal rest 0).map (fun n => (n : Int))
  | _ => if cs = [] then none else (digitsVal cs 0).map (fun n => (n : Int))

/-- The per-spec parsing step of `main` (aggregate-adapters.py lines
223-231): `path, weight_str = adapter_spec.split(":")` followed by
`weight = int(weight_str)`; any `ValueError` (a number of parts other than
two, or a non-integer after the colon) makes `main` exit, modelled `none`.
Strings are modelled as their character lists. -/
def parse_adapter_spec (s : List Char) : Option (List Char × Int) :=
  match pySplit ':' s with
  | [path, wstr] => (pyInt wstr).map (fun w => (path, w))
  | _ => none

/-! ## Worker hot-reload protocol (colab-worker-autoreload.py) -/

/-- A Python exception value (opaque: only its presence matters). -/
abbrev PyErr := String

/-- The response of the checkpoint-metadata HTTP call, as far as
`get_checkpoint_version` inspects it: the status code and the `version`
field of the JSON body.  `jsonVer = none` covers both a body that fails to
parse (the raised error is caught inside the function) and a body without
a `version` key (`data.get('version', 0)`). -/
structure HttpResp where
  status : Nat
  jsonVer : Option Nat
deriving DecidableEq, Repr

/-- `get_checkpoint_version` (lines 85-99): returns the backend's `version`
on a 200 response, and 0 on any other status, any raised exception, or a
missing `version` field. -/
def get_checkpoint_version : Except PyErr HttpResp → Nat
  | .error _ => 0
  | .ok resp => if resp.status = 200 then resp.jsonVer.getD 0 else 0

/-- The worker's mutable globals relevant to hot reload: `current_model`
(an opaque model identity) and `current_checkpoint_version`. -/
structure WorkerState where
  model : Nat
  version : Nat
deriving DecidableEq, Repr

/-- The outcomes of the external calls one `reload_model` attempt can make,
in program order: the first `get_checkpoint_version` HTTP call, the
checkpoint download (`download_checkpoint`, which `raise_for_status`es and
writes a file — collapsed to one fallible step yielding an opaque
checkpoint), `PeftModel.from_pretrained` (yielding the new model identity),
and the second `get_checkpoint_version` HTTP call made inside
`apply_lora_adapter`. -/
structure ReloadEnv where
  fetch1 : Except PyErr HttpResp
  download : Except PyErr Nat
  applied : Except PyErr Nat
  fetch2 : Except PyErr HttpResp
deriving Repr

/-- `apply_lora_adapter` (lines 101-123): on a loader failure the error is
printed and re-raised with the state untouched; on success the model is
swapped and `current_checkpoint_version` is set to the result of a fresh
`get_checkpoint_version` call. -/
def apply_lora_adapter (_st : WorkerState) (applied : Except PyErr Nat)
    (fetch2 : Except PyErr HttpResp) : Except PyErr WorkerState :=
  match applied with
  | .error e => .error e
  | .ok m => .ok { model := m, version := get_checkpoint_version fetch2 }

/-- `reload_model` (lines 125-153): fetch the latest version; if it is not
greater than the current one, return `False`; otherwise download and apply,
catching any raised error into a `False` return with the state unchanged.
Returns (return value, worker state after the attempt). -/
def reload_model (st : WorkerState) (env : ReloadEnv) : Bool × WorkerState :=
  let latest := get_checkpoint_version env.fetch1
  if st.version < latest then
    match env.download with
    | .error _ => (false, st)
    | .ok _ =>
        match apply_lora_adapter st env.applied env.fetch2 with
        | .error _ => (false, st)
        | .ok st' => (true, st')
  else (false, st)

/-! ## Worker lifecycle HTTP helpers (colab_worker_auto_lifecycle.py) -/

/-- The response of one lifecycle HTTP call, as far as the helpers inspect
it: status code and JSON body (opaque; `none` = body fails to parse, which
raises inside the helper's `try`). -/
structure LcResp where
  status : Nat
  body : Option Nat
deriving DecidableEq, Repr

/-- `send_heartbeat` (lines 105-114): POST the heartbeat and report whether
the status was 200; any raised exception becomes `False`. -/
def send_heartbeat (r : Except PyErr LcResp) : Bool :=
  match r with
  | .error _ => false
  | .ok resp => resp.status == 200

/-- `check_for_pending_job` (lines 120-132): on a 200 response return the
parsed body (a parse failure raises and is caught); anything else,
including a raised exception, yields `None`. -/
def check_for_pending_job (r : Except PyErr LcResp) : Option Nat :=
  match r with
  | .error _ => none
  | .ok resp => if resp.status = 200 then resp.body else none

/-- `send_gradients` (lines 165-185): POST the gradients,
`raise_for_status` (which raises exactly on 4xx/5xx), return `True`; any
raised exception becomes `False`. -/
def send_gradients (r : Except PyErr LcResp) : Bool :=
  match r with
  | .error _ => false
  | .ok resp => if 400 ≤ resp.status ∧ resp.status < 600 then false else true

/-! ## Federated training loop (FEDERATED_TRAINING.py) -/

/-- `BATCH_SIZE = 4` (line 50). -/
def BATCH_SIZE : Nat := 4

/-- `GRADIENT_ACCUMULATION_STEPS = 4` (line 51). -/
def GRADIENT_ACCUMULATION_STEPS : Nat := 4

/-- Python `range(0, stop, step)` for `step > 0`: the multiples of `step`
below `stop`, in order.  This is the batch-start iterator of the epoch loop
(line 287, with `step = BATCH_SIZE`). -/
def pyRange (stop step : Nat) : List Nat :=
  (List.range ((stop + step - 1) / step)).map (fun k => k * step)

/-- The `numExamples` field of the gradient sync payload (line 337):
`min(BATCH_SIZE * GRADIENT_ACCUMULATION_STEPS, len(dataset) - i)`, in exact
integer arithmetic (`n` = dataset length, `i` = batch start index). -/
def numExamples (n i : Int) : Int :=
  min ((BATCH_SIZE : Int) * (GRADIENT_ACCUMULATION_STEPS : Int)) (n - i)

/-! ## Helper lemmas about the aggregation loop -/

theorem lookupW_eq_none {out : Weights} {name : String}
    (h : name ∉ out.map Prod.fst) : lookupW out name = none := by
  induction out with
  | nil => rfl
  | cons p t ih =>
      simp only [List.map_cons, List.mem_cons, not_or] at h
      obtain ⟨h1, h2⟩ := h
      cases p with
      | mk k v =>
          simp only [lookupW]
          rw [if_neg (fun he => h1 he.symm), ih h2]

theorem lookupW_some_mem {w : Weights} {name : String} {v : Value}
    (h : lookupW w name = some v) : name ∈ w.map Prod.fst := by
  induction w with
  | nil => simp [lookupW] at h
  | cons p t ih =>
      cases p with
      | mk k u =>
          simp only [lookupW] at h
          by_cases hk : k = name
          · simp [hk]
          · rw [if_neg hk] at h
            simp [ih h]

theorem lookupW_mem_some {w : Weights} {name : String}
    (h : name ∈ w.map Prod.fst) : ∃ v, lookupW w name = some v := by
  induction w with
  | nil => simp at h
  | cons p t ih =>
      cases p with
      | mk k u =>
          by_cases hk : k = name
          · exact ⟨u, by simp [lookupW, hk]⟩
          · simp only [List.map_cons, List.mem_cons] at h
            rcases h with h | h
            · exact absurd h.symm hk
            · obtain ⟨v, hv⟩ := ih h
              exact ⟨v, by simp [lookupW, hk, hv]⟩

theorem aggLoop_cons_eq_some {adapters : List (Weights × ℚ)} {n : String}
    {ns : List String} {out : Weights} (h : aggLoop adapters (n :: ns) = some out) :
    ∃ r rest, aggParam adapters n = some r ∧ aggLoop adapters ns = some rest ∧
      out = (match r with | some v => (n, v) :: rest | none => rest) := by
  unfold aggLoop at h
  cases hr : aggParam adapters n with
  | none => rw [hr] at h; simp at h
  | some r =>
      rw [hr] at h
      cases hrest : aggLoop adapters ns with
      | none => rw [hrest] at h; simp at h
      | some rest =>
          rw [hrest] at h
          refine ⟨r, rest, rfl, rfl, ?_⟩
          cases r with
          | none => simpa using h.symm
          | some v => simpa using h.symm

theorem aggLoop_keys_sub {adapters : List (Weights × ℚ)} :
    ∀ {names : List String} {out : Weights}, aggLoop adapters names = some out →
      ∀ p ∈ out, p.1 ∈ names := by
  intro names
  induction names with
  | nil =>
      intro out h p hp
      simp only [aggLoop, Option.some.injEq] at h
      subst h
      exact absurd hp (List.not_mem_nil p)
  | cons n ns ih =>
      intro out h p hp
      obtain ⟨r, rest, _, hrest, hout⟩ := aggLoop_cons_eq_some h
      subst hout
      cases r with
      | none => exact List.mem_cons_of_mem n (ih hrest p hp)
      | some v =>
          rcases List.mem_cons.mp hp with h1 | h1
          · subst h1; exact List.mem_cons_self _ _
          · exact List.mem_cons_of_mem n (ih hrest p h1)

theorem aggLoop_lookup {adapters : List (Weights × ℚ)} :
    ∀ {names : List String} {out : Weights} {name : String}, names.Nodup →
      aggLoop adapters names = some out → name ∈ names →
      ∃ r, aggParam adapters name = some r ∧ lookupW out name = r := by
  intro names
  induction names with
  | nil => intro out name _ _ hm; simp at hm
  | cons n ns ih =>
      intro out name hnd h hm
      obtain ⟨r, rest, hr, hrest, hout⟩ := aggLoop_cons_eq_some h
      have hnd1 : n ∉ ns := (List.nodup_cons.mp hnd).1
      have hnd2 : ns.Nodup := (List.nodup_cons.mp hnd).2
      rcases List.mem_cons.mp hm with hname | hname
      · subst hname
        refine ⟨r, hr, ?_⟩
        have hrestnone : lookupW rest name = none := by
          apply lookupW_eq_none
          intro hmem
          obtain ⟨p, hp, hpeq⟩ := List.mem_map.mp hmem
          exact hnd1 (hpeq ▸ aggLoop_keys_sub hrest p hp)
        subst hout
        cases r with
        | none => exact hrestnone
        | some v => simp [lookupW]
      · have hne : n ≠ name := fun he => hnd1 (he ▸ hname)
        obtain ⟨r', hr', hl⟩ := ih hnd2 hrest hname
        refine ⟨r', hr', ?_⟩
        subst hout
        cases r with
        | none => exact hl
        | some v => simpa [lookupW, hne] using hl

theorem zipWith_weighted (r s : ℚ) :
    ∀ (a b : List ℚ), List.zipWith (fun x y => x + y)
      (a.map (fun x => x * r)) (b.map (fun y => y * s)) =
      List.zipWith (fun x y => r * x + s * y) a b := by
  intro a
  induction a with
  | nil => intro b; simp
  | cons x t ih =>
      intro b
      cases b with
      | nil => simp
      | cons y u =>
          simp only [List.map_cons, List.zipWith_cons_cons, ih]
          congr 1
          ring

theorem aggParam_one {w : Weights} (name : String) :
    aggParam [(w, 1)] name = some (lookupW w name) := by
  unfold aggParam
  simp only [List.foldlM_cons, List.foldlM_nil]
  cases h : lookupW w name with
  | none => simp [stepParam, h]
  | some v =>
      cases v with
      | arr a => simp [stepParam, h, mul_one]
      | meta m => simp [stepParam, h]

theorem aggLoop_one {w : Weights} :
    ∀ (names : List String), aggLoop [(w, 1)] names =
      some (names.filterMap (fun n => (lookupW w n).map (fun v => (n, v)))) := by
  intro names
  induction names with
  | nil => rfl
  | cons n ns ih =>
      unfold aggLoop
      rw [aggParam_one, ih]
      cases h : lookupW w n with
      | none => simp [h]
      | some v => simp [h]

theorem filterMap_lookup_self {w : Weights} (hnd : (w.map Prod.fst).Nodup) :
    (w.map Prod.fst).filterMap (fun n => (lookupW w n).map (fun v => (n, v))) = w := by
  induction w with
  | nil => rfl
  | cons p t ih =>
      cases p with
      | mk k v =>
          simp only [List.map_cons, List.nodup_cons] at hnd
          obtain ⟨hk, hnd'⟩ := hnd
          simp only [List.map_cons, List.filterMap_cons]
          rw [show lookupW ((k, v) :: t) k = some v by simp [lookupW]]
          simp only [Option.map_some']
          have hcongr : (t.map Prod.fst).filterMap
              (fun n => (lookupW ((k, v) :: t) n).map (fun u => (n, u))) =
              (t.map Prod.fst).filterMap (fun n => (lookupW t n).map (fun u => (n, u))) := by
            apply List.filterMap_congr
            intro n hn
            have hne : k ≠ n := fun he => hk (he ▸ hn)
            simp [lookupW, hne]
          rw [hcongr, ih hnd']

theorem stepParam_some_isSome {name : String} {v : Value} {p : Weights × ℚ}
    {r : Option Value} (h : stepParam name (some v) p = some r) : r.isSome := by
  cases p with
  | mk w q =>
      cases hl : lookupW w name with
      | none =>
          have hs : stepParam name (some v) (w, q) = some (some v) := by
            simp [stepParam, hl]
          rw [hs] at h
          simp at h
          simp [← h]
      | some u =>
          cases u with
          | meta m =>
              have hs : stepParam name (some v) (w, q) = some (some v) := by
                simp [stepParam, hl]
              rw [hs] at h
              simp at h
              simp [← h]
          | arr a =>
              cases v with
              | meta m =>
                  have hs : stepParam name (some (Value.meta m)) (w, q) = none := by
                    simp [stepParam, hl]
                  rw [hs] at h
                  simp at h
              | arr prev =>
                  have hs : stepParam name (some (Value.arr prev)) (w, q) =
                      (addArr prev (a.map (fun x => x * q))).map
                        (fun s => some (Value.arr s)) := by
                    simp [stepParam, hl]
                  rw [hs] at h
                  cases ha : addArr prev (a.map (fun x => x * q)) with
                  | none => rw [ha] at h; simp at h
                  | some s =>
                      rw [ha] at h
                      simp at h
                      simp [← h]

theorem foldlM_stepParam_isSome {name : String} :
    ∀ {l : List (Weights × ℚ)} {v : Value} {r : Option Value},
      List.foldlM (stepParam name) (some v) l = some r → r.isSome := by
  intro l
  induction l with
  | nil =>
      intro v r h
      simp only [List.foldlM_nil, pure, Option.some.injEq] at h
      simp [← h]
  | cons p t ih =>
      intro v r h
      simp only [List.foldlM_cons] at h
      rcases Option.bind_eq_some.mp h with ⟨acc, hacc, hrest⟩
      have := stepParam_some_isSome hacc
      cases acc with
      | none => simp at this
      | some v' => exact ih hrest

theorem aggParam_isSome_first {w0 : Weights} {r0 : ℚ} {rest : List (Weights × ℚ)}
    {name : String} {r : Option Value} (hmem : name ∈ w0.map Prod.fst)
    (h : aggParam ((w0, r0) :: rest) name = some r) : r.isSome := by
  obtain ⟨v, hv⟩ := lookupW_mem_some hmem
  unfold aggParam at h
  simp only [List.foldlM_cons] at h
  rcases Option.bind_eq_some.mp h with ⟨acc, hacc, hrest⟩
  have hsome : acc.isSome := by
    simp only [stepParam, hv] at hacc
    cases v with
    | meta m => simp at hacc; simp [← hacc]
    | arr a => simp at hacc; simp [← hacc]
  cases acc with
  | none => simp at hsome
  | some v' => exact foldlM_stepParam_isSome hrest

theorem aggLoop_map_fst {adapters : List (Weights × ℚ)} :
    ∀ {names : List String} {out : Weights}, aggLoop adapters names = some out →
      (∀ n ∈ names, ∀ r, aggParam adapters n = some r → r.isSome) →
      out.map Prod.fst = names := by
  intro names
  induction names with
  | nil =>
      intro out h _
      simp only [aggLoop, Option.some.injEq] at h
      subst h
      rfl
  | cons n ns ih =>
      intro out h hall
      obtain ⟨r, rest, hr, hrest, hout⟩ := aggLoop_cons_eq_some h
      have hrs := hall n (List.mem_cons_self _ _) r hr
      cases r with
      | none => simp at hrs
      | some v =>
          subst hout
          simp only [List.map_cons]
          rw [ih hrest (fun m hm => hall m (List.mem_cons_of_mem n hm))]

theorem mapM_ratio_fst {total : Int} :
    ∀ {pairs : List (Weights × Int)} {l : List (Weights × ℚ)},
      pairs.mapM (fun p => (pyDiv p.2 total).map (fun r => (p.1, r))) = some l →
      l.map Prod.fst = pairs.map Prod.fst := by
  intro pairs
  induction pairs with
  | nil =>
      intro l h
      simp only [List.mapM_nil, pure, Option.some.injEq] at h
      simp [← h]
  | cons p t ih =>
      intro l h
      simp only [List.mapM_cons] at h
      rcases Option.bind_eq_some.mp h with ⟨q, hq, h2⟩
      rcases Option.bind_eq_some.mp h2 with ⟨qs, hqs, h3⟩
      simp only [pure, Option.some.injEq] at h3
      subst h3
      simp only [Option.map_eq_some'] at hq
      obtain ⟨rr, _, hrr⟩ := hq
      subst hrr
      simp [ih hqs]

theorem computeRatios_map_fst {pairs : List (Weights × Int)} {l : List (Weights × ℚ)}
    (h : computeRatios pairs = some l) : l.map Prod.fst = pairs.map Prod.fst := by
  unfold computeRatios at h
  exact mapM_ratio_fst h

theorem mapM_option_isSome {α β : Type} {f : α → Option β} :
    ∀ {l : List α}, (∀ a ∈ l, (f a).isSome) → (l.mapM f).isSome := by
  intro l
  induction l with
  | nil => intro _; rw [List.mapM_nil]; rfl
  | cons a t ih =>
      intro h
      simp only [List.mapM_cons]
      obtain ⟨b, hb⟩ := Option.isSome_iff_exists.mp (h a (List.mem_cons_self _ _))
      obtain ⟨bs, hbs⟩ :=
        Option.isSome_iff_exists.mp (ih (fun x hx => h x (List.mem_cons_of_mem a hx)))
      rw [hb, hbs]
      simp

theorem computeRatios_isSome_iff {pairs : List (Weights × Int)} (hne : pairs ≠ []) :
    (computeRatios pairs).isSome ↔ (pairs.map Prod.snd).sum ≠ 0 := by
  rcases pairs with _ | ⟨p, t⟩
  · exact absurd rfl hne
  constructor
  · intro h htot
    simp only [computeRatios, List.mapM_cons, htot] at h
    simp [pyDiv] at h
  · intro htot
    simp only [computeRatios]
    apply mapM_option_isSome
    intro a _
    simp only [pyDiv]
    rw [if_neg htot]
    simp

theorem computeRatios_pair {wA wB : Weights} {nA nB : Int} (h : nA + nB ≠ 0) :
    computeRatios [(wA, nA), (wB, nB)] =
      some [(wA, (nA : ℚ) / ((nA : ℚ) + (nB : ℚ))),
            (wB, (nB : ℚ) / ((nA : ℚ) + (nB : ℚ)))] := by
  simp only [computeRatios, List.mapM_cons, List.mapM_nil, List.map_cons, List.map_nil,
    List.sum_cons, List.sum_nil, add_zero, pyDiv, if_neg h]
  push_cast
  rfl

theorem aggregate_eq_aggLoop {pairs : List (Weights × Int)} {first : Weights × ℚ}
    {rest : List (Weights × ℚ)} (h : computeRatios pairs = some (first :: rest)) :
    aggregate_adapters pairs = aggLoop (first :: rest) (first.1.map Prod.fst) := by
  unfold aggregate_adapters
  rw [h]
  rfl

theorem aggregate_eq_some_inv {pairs : List (Weights × Int)} {out : Weights}
    (h : aggregate_adapters pairs = some out) :
    ∃ first rest, computeRatios pairs = some (first :: rest) ∧
      aggLoop (first :: rest) (first.1.map Prod.fst) = some out := by
  unfold aggregate_adapters at h
  cases hc : computeRatios pairs with
  | none => rw [hc] at h; simp at h
  | some l =>
      rw [hc] at h
      cases l with
      | nil => simp at h
      | cons first rest => exact ⟨first, rest, rfl, by simpa using h⟩

theorem aggParam_pair_both {wA wB : Weights} {rA rB : ℚ} {name : String} {a b : List ℚ}
    (h1 : lookupW wA name = some (Value.arr a)) (h2 : lookupW wB name = some (Value.arr b))
    (hlen : a.length = b.length) :
    aggParam [(wA, rA), (wB, rB)] name =
      some (some (Value.arr (List.zipWith (fun x y => rA * x + rB * y) a b))) := by
  have hadd : addArr (a.map (fun x => x * rA)) (b.map (fun x => x * rB)) =
      some (List.zipWith (fun x y => rA * x + rB * y) a b) := by
    unfold addArr
    rw [if_pos (by simp [hlen]), zipWith_weighted]
  unfold aggParam
  simp only [List.foldlM_cons, List.foldlM_nil, stepParam, h1, h2, hadd]
  simp
  exact hadd

theorem aggParam_pair_skip {wA wB : Weights} {rA rB : ℚ} {name : String} {a : List ℚ}
    (h1 : lookupW wA name = some (Value.arr a)) (h2 : lookupW wB name = none) :
    aggParam [(wA, rA), (wB, rB)] name =
      some (some (Value.arr (a.map (fun x => x * rA)))) := by
  unfold aggParam
  simp [List.foldlM_cons, List.foldlM_nil, stepParam, h1, h2]

theorem foldlM_stepParam_meta {name : String} {m : String} :
    ∀ {l : List (Weights × ℚ)},
      (∀ p ∈ l, ∀ a, lookupW p.1 name ≠ some (Value.arr a)) →
      List.foldlM (stepParam name) (some (Value.meta m)) l =
        some (some (Value.meta m)) := by
  intro l
  induction l with
  | nil => intro _; rfl
  | cons p t ih =>
      intro h
      simp only [List.foldlM_cons]
      have hstep : stepParam name (some (Value.meta m)) p = some (some (Value.meta m)) := by
        cases hl : lookupW p.1 name with
        | none => cases p; simp_all [stepParam]
        | some v =>
            cases v with
            | arr a => exact absurd hl (h p (List.mem_cons_self _ _) a)
            | meta s => cases p; simp_all [stepParam]
      rw [hstep]
      simpa using ih (fun q hq => h q (List.mem_cons_of_mem p hq))

theorem aggParam_meta_first {w0 : Weights} {r0 : ℚ} {rest : List (Weights × ℚ)}
    {name m : String} (h0 : lookupW w0 name = some (Value.meta m))
    (hall : ∀ p ∈ rest, ∀ a, lookupW p.1 name ≠ some (Value.arr a)) :
    aggParam ((w0, r0) :: rest) name = some (some (Value.meta m)) := by
  unfold aggParam
  simp only [List.foldlM_cons]
  have hstep : stepParam name none (w0, r0) = some (some (Value.meta m)) := by
    simp [stepParam, h0]
  rw [hstep]
  simpa using foldlM_stepParam_meta hall

/-! ## Concrete round evaluations used by witnesses and counterexamples -/

theorem agg_round_two_arrays :
    aggregate_adapters [([("p", Value.arr [1])], 100), ([("p", Value.arr [3])], 300)] =
      some [("p", Value.arr [(5 : ℚ)/2])] := by
  have hcr : computeRatios
      [([("p", Value.arr [1])], (100 : Int)), ([("p", Value.arr [3])], 300)] =
      some [([("p", Value.arr [1])], (1 : ℚ)/4), ([("p", Value.arr [3])], (3 : ℚ)/4)] := by
    rw [computeRatios_pair (by norm_num)]
    norm_num
  rw [aggregate_eq_aggLoop hcr]
  simp [aggLoop, aggParam, List.foldlM_cons, List.foldlM_nil, stepParam, lookupW, addArr]
  norm_num

theorem agg_round_missing_param :
    aggregate_adapters [([("p1", Value.arr [1]), ("p2", Value.arr [1])], 100),
        ([("p1", Value.arr [1])], 300)] =
      some [("p1", Value.arr [1]), ("p2", Value.arr [(1 : ℚ)/4])] := by
  have hcr : computeRatios
      [([("p1", Value.arr [1]), ("p2", Value.arr [1])], (100 : Int)),
       ([("p1", Value.arr [1])], 300)] =
      some [([("p1", Value.arr [1]), ("p2", Value.arr [1])], (1 : ℚ)/4),
            ([("p1", Value.arr [1])], (3 : ℚ)/4)] := by
    rw [computeRatios_pair (by norm_num)]
    norm_num
  rw [aggregate_eq_aggLoop hcr]
  simp [aggLoop, aggParam, List.foldlM_cons, List.foldlM_nil, stepParam, lookupW, addArr]
  norm_num

theorem agg_round_extra_param :
    aggregate_adapters [([("p1", Value.arr [1])], 100),
        ([("p1", Value.arr [1]), ("p3", Value.arr [7])], 300)] =
      some [("p1", Value.arr [1])] := by
  have hcr : computeRatios
      [([("p1", Value.arr [1])], (100 : Int)),
       ([("p1", Value.arr [1]), ("p3", Value.arr [7])], 300)] =
      some [([("p1", Value.arr [1])], (1 : ℚ)/4),
            ([("p1", Value.arr [1]), ("p3", Value.arr [7])], (3 : ℚ)/4)] := by
    rw [computeRatios_pair (by norm_num)]
    norm_num
  rw [aggregate_eq_aggLoop hcr]
  simp [aggLoop, aggParam, List.foldlM_cons, List.foldlM_nil, stepParam, lookupW, addArr]
  norm_num

theorem agg_round_with_meta :
    aggregate_adapters [([("cfg", Value.meta "c"), ("p", Value.arr [1])], 100),
        ([("p", Value.arr [1])], 300)] =
      some [("cfg", Value.meta "c"), ("p", Value.arr [1])] := by
  have hcr : computeRatios
      [([("cfg", Value.meta "c"), ("p", Value.arr [1])], (100 : Int)),
       ([("p", Value.arr [1])], 300)] =
      some [([("cfg", Value.meta "c"), ("p", Value.arr [1])], (1 : ℚ)/4),
            ([("p", Value.arr [1])], (3 : ℚ)/4)] := by
    rw [computeRatios_pair (by norm_num)]
    norm_num
  rw [aggregate_eq_aggLoop hcr]
  simp [aggLoop, aggParam, List.foldlM_cons, List.foldlM_nil, stepParam, lookupW, addArr]
  norm_num

theorem agg_round_meta_second :
    aggregate_adapters [([("p", Value.arr [1])], 100),
        ([("p", Value.arr [1]), ("note", Value.meta "x")], 300)] =
      some [("p", Value.arr [1])] := by
  have hcr : computeRatios
      [([("p", Value.arr [1])], (100 : Int)),
       ([("p", Value.arr [1]), ("note", Value.meta "x")], 300)] =
      some [([("p", Value.arr [1])], (1 : ℚ)/4),
            ([("p", Value.arr [1]), ("note", Value.meta "x")], (3 : ℚ)/4)] := by
    rw [computeRatios_pair (by norm_num)]
    norm_num
  rw [aggregate_eq_aggLoop hcr]
  simp [aggLoop, aggParam, List.foldlM_cons, List.foldlM_nil, stepParam, lookupW, addArr]
  norm_num

/-! ## Claims -/

/-- C1: weighted FedAvg correctness.  For every parameter name present in
both of two submissions `(w1, 100)` and `(w2, 300)` (with consistent array
shapes and well-formed dict keys), whenever aggregation succeeds the
aggregated value of that parameter is the pointwise combination
`0.25 * w1 + 0.75 * w2`, the weight ratios being `100/400` and `300/400`. -/
theorem C1_weighted_fedavg (w1 w2 : Weights) (name : String) (a1 a2 : List ℚ)
    (out : Weights) (hnd : (w1.map Prod.fst).Nodup)
    (h1 : lookupW w1 name = some (Value.arr a1))
    (h2 : lookupW w2 name = some (Value.arr a2))
    (hlen : a1.length = a2.length)
    (hagg : aggregate_adapters [(w1, 100), (w2, 300)] = some out) :
    lookupW out name =
      some (Value.arr (List.zipWith (fun x y => (1/4 : ℚ) * x + (3/4 : ℚ) * y) a1 a2)) := by
  have hcr : computeRatios [(w1, (100 : Int)), (w2, 300)] =
      some [(w1, (1 : ℚ)/4), (w2, (3 : ℚ)/4)] := by
    rw [computeRatios_pair (by norm_num)]
    norm_num
  rw [aggregate_eq_aggLoop hcr] at hagg
  obtain ⟨r, hr, hlook⟩ := aggLoop_lookup hnd hagg (lookupW_some_mem h1)
  rw [aggParam_pair_both h1 h2 hlen] at hr
  injection hr with hr
  rw [hlook, ← hr]

/-- C1 witness: the theorem applied to the concrete round
`{("p" ↦ [1], 100), ("p" ↦ [3], 300)}`, whose aggregate is `[5/2]`. -/
theorem C1_weighted_fedavg_witness :
    lookupW [("p", Value.arr [(5 : ℚ)/2])] "p" =
      some (Value.arr (List.zipWith (fun x y => (1/4 : ℚ) * x + (3/4 : ℚ) * y) [1] [3])) :=
  C1_weighted_fedavg [("p", Value.arr [1])] [("p", Value.arr [3])] "p" [1] [3]
    [("p", Value.arr [(5 : ℚ)/2])] (by decide) (by decide) (by decide) (by decide)
    agg_round_two_arrays

/-- C2: single-submission identity.  Aggregating a round whose input is
exactly one submission with any positive `numExamples` returns that
submission's weight mapping unchanged (weight ratio `n/n = 1.0`), both for
numeric arrays and metadata values. -/
theorem C2_single_submission_identity (w : Weights) (n : Int) (hn : 0 < n)
    (hnd : (w.map Prod.fst).Nodup) : aggregate_adapters [(w, n)] = some w := by
  have hne : n ≠ 0 := hn.ne'
  have hcr : computeRatios [(w, n)] = some [(w, 1)] := by
    simp only [computeRatios, List.mapM_cons, List.mapM_nil, List.map_cons, List.map_nil,
      List.sum_cons, List.sum_nil, add_zero, pyDiv, if_neg hne]
    simp [div_self (show ((n : ℚ)) ≠ 0 from Int.cast_ne_zero.mpr hne)]
  rw [aggregate_eq_aggLoop hcr]
  show aggLoop [(w, 1)] (w.map Prod.fst) = some w
  rw [aggLoop_one, filterMap_lookup_self hnd]

/-- C2 witness: the theorem applied to a concrete submission holding an
array parameter and a metadata entry, with `numExamples = 5`. -/
theorem C2_single_submission_identity_witness :
    aggregate_adapters [([("p", Value.arr [2, 3]), ("m", Value.meta "cfg")], 5)] =
      some [("p", Value.arr [2, 3]), ("m", Value.meta "cfg")] :=
  C2_single_submission_identity [("p", Value.arr [2, 3]), ("m", Value.meta "cfg")] 5
    (by decide) (by decide)

/-- C3 counterexample: worker A submits `{p1 ↦ [1], p2 ↦ [1]}` with 100
examples, worker B submits `{p1 ↦ [1]}` with 300 examples.  The aggregated
`p2` is `[1/4]` — A's value scaled by A's unnormalized weight ratio — not
A's value `[1]` unchanged, refuting the claim as stated. -/
theorem C3_counterexample :
    aggregate_adapters [([("p1", Value.arr [1]), ("p2", Value.arr [1])], 100),
        ([("p1", Value.arr [1])], 300)] =
      some [("p1", Value.arr [1]), ("p2", Value.arr [(1 : ℚ)/4])] ∧
    Value.arr [(1 : ℚ)/4] ≠ Value.arr [1] := by
  refine ⟨agg_round_missing_param, ?_⟩
  simp only [ne_eq, Value.arr.injEq, List.cons.injEq, and_true]
  norm_num

/-- C3 amended: if worker A submits a parameter that worker B omits (both
with positive `numExamples`), the submission omitting it is excluded from
that parameter's weighted sum and the remaining ratios are not
renormalized, so the aggregated value is A's value scaled by A's weight
ratio `nA / (nA + nB)` (not A's value unchanged). -/
theorem C3_missing_param_scaled (wA wB : Weights) (nA nB : Int) (name : String)
    (a : List ℚ) (out : Weights) (hnd : (wA.map Prod.fst).Nodup)
    (hA : lookupW wA name = some (Value.arr a)) (hB : lookupW wB name = none)
    (hnA : 0 < nA) (hnB : 0 < nB)
    (hagg : aggregate_adapters [(wA, nA), (wB, nB)] = some out) :
    lookupW out name =
      some (Value.arr (a.map (fun x => x * ((nA : ℚ) / ((nA : ℚ) + (nB : ℚ)))))) := by
  have hsum : nA + nB ≠ 0 := by omega
  have hcr := @computeRatios_pair wA wB nA nB hsum
  rw [aggregate_eq_aggLoop hcr] at hagg
  obtain ⟨r, hr, hlook⟩ := aggLoop_lookup hnd hagg (lookupW_some_mem hA)
  rw [aggParam_pair_skip hA hB] at hr
  injection hr with hr
  rw [hlook, ← hr]

/-- C3 amended, witness: the theorem applied to the concrete round of the
counterexample; the aggregated `p2` equals `[1 * (100/(100+300))]`. -/
theorem C3_missing_param_scaled_witness :
    lookupW [("p1", Value.arr [1]), ("p2", Value.arr [(1 : ℚ)/4])] "p2" =
      some (Value.arr (List.map
        (fun x => x * (((100 : Int) : ℚ) / (((100 : Int) : ℚ) + ((300 : Int) : ℚ)))) [1])) :=
  C3_missing_param_scaled [("p1", Value.arr [1]), ("p2", Value.arr [1])]
    [("p1", Value.arr [1])] 100 300 "p2" [1]
    [("p1", Value.arr [1]), ("p2", Value.arr [(1 : ℚ)/4])]
    (by decide) (by decide) (by decide) (by decide) (by decide) agg_round_missing_param

/-- C4 counterexample: worker B's parameter `p3` is absent from the first
submission; the aggregated output drops it entirely, so the output domain
is not the union of the submissions' parameter names. -/
theorem C4_counterexample :
    aggregate_adapters [([("p1", Value.arr [1])], 100),
        ([("p1", Value.arr [1]), ("p3", Value.arr [7])], 300)] =
      some [("p1", Value.arr [1])] ∧
    lookupW [("p1", Value.arr [1]), ("p3", Value.arr [7])] "p3" = some (Value.arr [7]) ∧
    lookupW [("p1", Value.arr [1])] "p3" = none := by
  refine ⟨agg_round_extra_param, by decide, by decide⟩

/-- C4 amended: the aggregated weight mapping's parameter names are exactly
the FIRST submission's parameter names (in order); names present only in
later submissions are dropped, each kept name being computed by the
weighted sum over the submissions that contain it. -/
theorem C4_domain_is_first_submission (w0 : Weights) (n0 : Int)
    (rest : List (Weights × Int)) (out : Weights)
    (hagg : aggregate_adapters ((w0, n0) :: rest) = some out) :
    out.map Prod.fst = w0.map Prod.fst := by
  obtain ⟨first, arest, hcr, hloop⟩ := aggregate_eq_some_inv hagg
  have hfst := computeRatios_map_fst hcr
  simp only [List.map_cons, List.cons.injEq] at hfst
  obtain ⟨hf, -⟩ := hfst
  rw [← hf]
  obtain ⟨fw, fr⟩ := first
  exact aggLoop_map_fst hloop (fun nm hmem r hr => aggParam_isSome_first hmem hr)

/-- C4 amended, witness: the theorem applied to the counterexample's round;
the output's key list equals the first submission's key list `["p1"]`. -/
theorem C4_domain_is_first_submission_witness :
    List.map Prod.fst [("p1", Value.arr [(1 : ℚ)])] =
      List.map Prod.fst [("p1", Value.arr [(1 : ℚ)])] :=
  C4_domain_is_first_submission [("p1", Value.arr [1])] 100
    [([("p1", Value.arr [1]), ("p3", Value.arr [7])], 300)]
    [("p1", Value.arr [1])] agg_round_extra_param

/-- C5: hot-reload atomicity on failure.  For every worker state and every
reload attempt in which the checkpoint download or the adapter application
raises, `reload_model` returns `False` (it does not propagate the error)
and the worker state — served model and reported checkpoint version — is
unchanged, so the worker keeps serving its previous model. -/
theorem C5_hot_reload_atomic_on_failure (st : WorkerState) (env : ReloadEnv) (e : PyErr)
    (h : env.download = .error e ∨ env.applied = .error e) :
    reload_model st env = (false, st) := by
  rcases h with h | h
  · simp only [reload_model, h]
    split <;> rfl
  · simp only [reload_model, h, apply_lora_adapter]
    split
    · split <;> rfl
    · rfl

/-- C5 witness: the theorem applied to a worker at version 1 whose
download raises a connection error. -/
theorem C5_hot_reload_atomic_on_failure_witness :
    reload_model ⟨1, 1⟩ ⟨Except.ok ⟨200, some 5⟩, Except.error "connection reset",
      Except.ok 2, Except.ok ⟨200, some 5⟩⟩ = (false, ⟨1, 1⟩) :=
  C5_hot_reload_atomic_on_failure ⟨1, 1⟩
    ⟨Except.ok ⟨200, some 5⟩, Except.error "connection reset",
     Except.ok 2, Except.ok ⟨200, some 5⟩⟩ "connection reset" (Or.inl rfl)

/-- C6 failing input, evaluated: a worker at version 1 sees checkpoint
version 2 on the backend, downloads and applies it successfully, but the
second metadata fetch inside `apply_lora_adapter` raises; the reload
returns `True` (success) yet the reported version becomes 0 — not the
version 2 just loaded, and strictly below the previous reported version 1.
The code re-fetches the version over the network after the load instead of
recording the version it loaded. -/
theorem C6_version_refetch_bug :
    reload_model ⟨0, 1⟩ ⟨Except.ok ⟨200, some 2⟩, Except.ok 7, Except.ok 8,
      Except.error "network"⟩ = (true, ⟨8, 0⟩) ∧
    get_checkpoint_version (Except.ok ⟨200, some 2⟩) = 2 ∧ (0 : Nat) < 1 := by
  refine ⟨by decide, by decide, by decide⟩

/-- C7 counterexample: the metadata entry `note` appears only in the
second submission; the aggregated output does not carry it at all (it is
outside the first submission's key list), refuting the claim as stated. -/
theorem C7_counterexample :
    aggregate_adapters [([("p", Value.arr [1])], 100),
        ([("p", Value.arr [1]), ("note", Value.meta "x")], 300)] =
      some [("p", Value.arr [1])] ∧
    lookupW [("p", Value.arr [1]), ("note", Value.meta "x")] "note" =
      some (Value.meta "x") ∧
    lookupW [("p", Value.arr [1])] "note" = none := by
  refine ⟨agg_round_meta_second, by decide, by decide⟩

/-- C7 amended: for every parameter OF THE FIRST SUBMISSION whose value is
not a numeric array in any submission that contains it, the aggregated
output carries the first submission's value through unchanged — never
multiplied by a weight ratio.  (Metadata parameters absent from the first
submission are dropped with the rest of the non-first-submission domain,
as C4 shows.) -/
theorem C7_metadata_passthrough (w0 : Weights) (n0 : Int) (restP : List (Weights × Int))
    (name m : String) (out : Weights)
    (hnd : (w0.map Prod.fst).Nodup)
    (h0 : lookupW w0 name = some (Value.meta m))
    (hall : ∀ p ∈ (w0, n0) :: restP, ∀ a, lookupW p.1 name ≠ some (Value.arr a))
    (hagg : aggregate_adapters ((w0, n0) :: restP) = some out) :
    lookupW out name = some (Value.meta m) := by
  obtain ⟨first, arest, hcr, hloop⟩ := aggregate_eq_some_inv hagg
  have hfst := computeRatios_map_fst hcr
  simp only [List.map_cons, List.cons.injEq] at hfst
  obtain ⟨hf, hrest⟩ := hfst
  obtain ⟨fw, fr⟩ := first
  simp only at hf hrest hloop
  subst hf
  obtain ⟨r, hr, hlook⟩ := aggLoop_lookup hnd hloop (lookupW_some_mem h0)
  have hallrest : ∀ p ∈ arest, ∀ a, lookupW p.1 name ≠ some (Value.arr a) := by
    intro p hp a hv
    have hm : p.1 ∈ List.map Prod.fst restP := by
      rw [← hrest]
      exact List.mem_map_of_mem Prod.fst hp
    obtain ⟨q, hq, hq1⟩ := List.mem_map.mp hm
    exact hall q (List.mem_cons_of_mem _ hq) a (by rw [hq1]; exact hv)
  rw [aggParam_meta_first h0 hallrest] at hr
  injection hr with hr
  rw [hlook, ← hr]

/-- C7 amended, witness: a `cfg` metadata entry in the first submission of
a two-submission round is carried through unchanged. -/
theorem C7_metadata_passthrough_witness :
    lookupW [("cfg", Value.meta "c"), ("p", Value.arr [1])] "cfg" =
      some (Value.meta "c") :=
  C7_metadata_passthrough [("cfg", Value.meta "c"), ("p", Value.arr [1])] 100
    [([("p", Value.arr [1])], 300)] "cfg" "c"
    [("cfg", Value.meta "c"), ("p", Value.arr [1])]
    (by decide) (by decide)
    (by
      intro p hp a hv
      simp only [List.mem_cons, List.not_mem_nil, or_false] at hp
      rcases hp with h | h <;> subst h <;> simp [lookupW] at hv)
    agg_round_with_meta

/-- C8: positive weighting basis.  For every non-empty dataset length `n`,
every batch start index `i` produced by `range(0, n, BATCH_SIZE)` gives a
strictly positive `numExamples = min(BATCH_SIZE *
GRADIENT_ACCUMULATION_STEPS, n - i)` in the gradient sync payload. -/
theorem C8_numExamples_positive (n : Nat) (hn : 0 < n) :
    ∀ i ∈ pyRange n BATCH_SIZE, 0 < numExamples (n : Int) (i : Int) := by
  intro i hi
  simp only [pyRange, List.mem_map, List.mem_range] at hi
  obtain ⟨k, hk, hik⟩ := hi
  subst hik
  have hlt : k * 4 < n := by
    simp only [BATCH_SIZE] at hk
    omega
  have hcast : ((k * 4 : Nat) : Int) < (n : Int) := by exact_mod_cast hlt
  simp only [numExamples, BATCH_SIZE, GRADIENT_ACCUMULATION_STEPS]
  rw [lt_min_iff]
  constructor
  · norm_num
  · omega

/-- C8 witness: the theorem applied to a dataset of 5 examples at the last
batch start index 4, where `numExamples = min(16, 1) = 1 > 0`. -/
theorem C8_numExamples_positive_witness :
    (4 : Nat) ∈ pyRange 5 BATCH_SIZE ∧ 0 < numExamples (5 : Int) (4 : Int) :=
  ⟨by decide, C8_numExamples_positive 5 (by decide) 4 (by decide)⟩

/-- C9: the weight-ratio computation of `aggregate_adapters` divides by
`total_examples` with no guard, so for a non-empty adapter list it is free
of division errors exactly when the `num_examples` do not sum to zero; and
the argument parsing of `main` accepts any integer after the colon,
including zero and negative values, so the positivity precondition is not
enforced at the public boundary. -/
theorem C9_no_division_guard :
    (∀ (pairs : List (Weights × Int)), pairs ≠ [] →
      ((computeRatios pairs).isSome ↔ (pairs.map Prod.snd).sum ≠ 0)) ∧
    parse_adapter_spec "adapter:0".toList = some ("adapter".toList, 0) ∧
    parse_adapter_spec "adapter:-5".toList = some ("adapter".toList, -5) := by
  refine ⟨fun pairs hne => computeRatios_isSome_iff hne, by decide, by decide⟩

/-- C9 witness: the theorem applied to the singleton adapter list with
`num_examples = 0`, whose ratio computation raises `ZeroDivisionError`. -/
theorem C9_no_division_guard_witness :
    (computeRatios [([("p", Value.arr [1])], (0 : Int))]).isSome = false := by
  rw [Bool.eq_false_iff]
  intro hs
  exact (C9_no_division_guard.1 [([("p", Value.arr [1])], 0)] (by decide)).mp hs (by decide)

/-- C10: worker-side error containment.  Every exception raised by the
underlying HTTP call is caught: `send_heartbeat` returns `False`,
`check_for_pending_job` returns `None`, `send_gradients` returns `False`;
and a 4xx/5xx response makes `send_gradients` return `False` via
`raise_for_status` rather than propagating. -/
theorem C10_lifecycle_error_containment :
    (∀ e : PyErr, send_heartbeat (Except.error e) = false ∧
      check_for_pending_job (Except.error e) = none ∧
      send_gradients (Except.error e) = false) ∧
    (∀ resp : LcResp, 400 ≤ resp.status → resp.status < 600 →
      send_gradients (Except.ok resp) = false) := by
  constructor
  · intro e
    exact ⟨rfl, rfl, rfl⟩
  · intro resp h1 h2
    simp [send_gradients, h1, h2]

/-- C10 witness: the theorem applied to a concrete timeout exception and a
concrete 500 response. -/
theorem C10_lifecycle_error_containment_witness :
    send_heartbeat (Except.error "timeout") = false ∧
    check_for_pending_job (Except.error "timeout") = none ∧
    send_gradients (Except.ok ⟨500, none⟩) = false :=
  ⟨(C10_lifecycle_error_containment.1 "timeout").1,
   (C10_lifecycle_error_containment.1 "timeout").2.1,
   C10_lifecycle_error_containment.2 ⟨500, none⟩ (by decide) (by decide)⟩

end Aion
